import Mathlib

/-!
Verification development for the blog_scraper repository.

The scrapers (ahrefs, moz, backlinko, developer_google, el_placer_del_seo, …)
share one engine shape: a resilient fetcher with retries and backoff, a
pagination traversal per category, an HTML normalizer based on a tag/attribute
allow-list, an excerpt derivation, and an incremental update algorithm over a
persisted JSON store.  Below, each of those pieces is embedded as executable
Lean definitions translated from the Python source
(src/scrapers/ahrefs_scraper.py and friends), and the frozen claims about the
program are settled as theorems over the embedding.

Modelling conventions:
- HTML documents are finite trees (`HNode`/`HForest`); BeautifulSoup's
  `find_all(True, recursive=True)` is the preorder list of element
  descendants; `str(element)` is `serializeNode`.
- Network effects are an environment of pure functions: a URL is mapped to
  the parsed shape of the fetched page (`Option` models fetch failure after
  retries).  Selector lookups on a fetched page (link tag, date tag, content
  root, next-page locator) are part of that parsed shape, since the spec
  treats markup locators as external source configuration.
- Locale-dependent date parsing (`_parse_date`, excluded by the spec as an
  external parsing table) is an environment function `parseDate`.
- The JSON files on disk are a `FS` state: `db = none` models an absent
  database file, `some` a present one (possibly with an empty article list).
-/

/- HTML node: an element with tag, attributes and children, or a text node.
Attributes are an association list (Python dict preserving insertion order);
the `class` attribute holds a space-separated token list as in HTML. -/
mutual
inductive HNode where
  | elem : String → List (String × String) → HForest → HNode
  | text : String → HNode
inductive HForest where
  | nil : HForest
  | cons : HNode → HForest → HForest
end

/-- Tag name of a node (text nodes have no tag; BeautifulSoup's
`find_all(True)` never yields them, so the value for text is irrelevant). -/
def tagOf : HNode → String
  | .elem t _ _ => t
  | .text _ => ""

/-- Attribute list of a node. -/
def attrsOf : HNode → List (String × String)
  | .elem _ a _ => a
  | .text _ => []

/-- Serialization of attributes, as in `str(element)`:
a space, the name, `="`, the value, `"`. -/
def serializeAttrs (a : List (String × String)) : String :=
  String.join (a.map (fun p => " " ++ p.1 ++ "=\"" ++ p.2 ++ "\""))

mutual
/-- `str(element)` / `str(text)` of BeautifulSoup: opening tag with
attributes, serialized children, closing tag. -/
def serializeNode : HNode → String
  | .text s => s
  | .elem t a cs => "<" ++ t ++ serializeAttrs a ++ ">" ++ serializeForest cs ++ "</" ++ t ++ ">"
def serializeForest : HForest → String
  | .nil => ""
  | .cons n f => serializeNode n ++ serializeForest f
end

mutual
/-- `element.get_text()`: concatenation of all text descendants in order. -/
def nodeText : HNode → String
  | .text s => s
  | .elem _ _ cs => forestText cs
def forestText : HForest → String
  | .nil => ""
  | .cons n f => nodeText n ++ forestText f
end

mutual
/-- An element together with all its element descendants, in document
(preorder) order; text nodes contribute nothing. -/
def selfAndDesc : HNode → List HNode
  | .text _ => []
  | .elem t a cs => .elem t a cs :: forestDesc cs
def forestDesc : HForest → List HNode
  | .nil => []
  | .cons n f => selfAndDesc n ++ forestDesc f
end

/-- `soup.find_all(True, recursive=True)` on an element: all element
descendants of the node, in document order, excluding the node itself. -/
def nodeDescendants : HNode → List HNode
  | .text _ => []
  | .elem _ _ cs => forestDesc cs

/-- Attribute lookup on an attribute list. -/
def attrVal (a : List (String × String)) (k : String) : Option String :=
  (a.find? (fun p => p.1 == k)).map (fun p => p.2)

/-- The class-token list of an attribute list (CSS `.foo` selector matching). -/
def clsTokens (a : List (String × String)) : List String :=
  match attrVal a "class" with
  | none => []
  | some v => (v.split Char.isWhitespace).filter (fun t => t ≠ "")

/-- Does the node carry the given class token? -/
def hasCls (c : String) : HNode → Bool
  | .text _ => false
  | .elem _ a _ => (clsTokens a).contains c

mutual
/-- `decompose()` of every descendant matched by the predicate, as done by
`for unwanted in content_soup.select(...): unwanted.decompose()`:
matched subtrees are removed wholesale; the root itself is not tested
(CSS `select` searches descendants only). -/
def scrubNode (p : HNode → Bool) : HNode → HNode
  | .text s => .text s
  | .elem t a cs => .elem t a (scrubForest p cs)
def scrubForest (p : HNode → Bool) : HForest → HForest
  | .nil => .nil
  | .cons n f => if p n then scrubForest p f else .cons (scrubNode p n) (scrubForest p f)
end

/-- `div.author-desktop, div.post-navigation2, div.post-navigation-left`
(the ahrefs deny-list). -/
def ahrefsUnwanted (n : HNode) : Bool :=
  tagOf n = "div" &&
    (hasCls "author-desktop" n || hasCls "post-navigation2" n || hasCls "post-navigation-left" n)

/-- `.page-section-wrapper-cta-block, .blog-social-wrapper` (the moz
deny-list; any tag). -/
def mozUnwanted (n : HNode) : Bool :=
  hasCls "page-section-wrapper-cta-block" n || hasCls "blog-social-wrapper" n

/-- The attribute filtering done on a visited element:
`for attr in dict(element.attrs): if attr not in allowed_attrs: del ...`.
Only the element's own attributes are touched, never its descendants'. -/
def filterOwnAttrs (allowedAttrs : List String) : HNode → HNode
  | .elem t a cs => .elem t (a.filter (fun p => allowedAttrs.contains p.1)) cs
  | .text s => .text s

/-- The body of `_clean_html_content`'s loop over `find_all(True)`.
`find_all` is computed eagerly before the loop, and the loop visits the
elements in preorder, so when element `v` is serialized every mutation
performed so far touched only nodes outside `v`'s subtree — except `v`'s own
attribute filtering, which happens just before `str(v)`.  Hence the fragment
emitted for `v` is the serialization of `v` with its own attributes filtered
and its descendants untouched. -/
def cleanLoop (allowedTags allowedAttrs : List String) : List HNode → List String
  | [] => []
  | v :: rest =>
    if allowedTags.contains (tagOf v) then
      serializeNode (filterOwnAttrs allowedAttrs v) :: cleanLoop allowedTags allowedAttrs rest
    else
      cleanLoop allowedTags allowedAttrs rest

def ahrefsAllowedTags : List String :=
  ["h2", "h3", "h4", "h5", "h6", "p", "figure", "img", "table", "code", "blockquote", "a", "ul", "ol", "li"]

def ahrefsAllowedAttrs : List String := ["href", "src", "alt", "title"]

def mozAllowedTags : List String := ahrefsAllowedTags ++ ["iframe"]

def mozAllowedAttrs : List String := ahrefsAllowedAttrs ++ ["width", "height", "frameborder"]

/-- The fragment list produced by ahrefs' `_clean_html_content` on a content
root: deny-list removal, then the allow-list loop over all descendants. -/
def ahrefsCleanParts (root : HNode) : List String :=
  cleanLoop ahrefsAllowedTags ahrefsAllowedAttrs (nodeDescendants (scrubNode ahrefsUnwanted root))

/-- ahrefs `_clean_html_content`: `"\n".join(content_parts)`. -/
def ahrefsCleanHtmlContent (root : HNode) : String :=
  String.intercalate "\n" (ahrefsCleanParts root)

/-- moz `_clean_html_content` (iframe tag and width/height/frameborder
attributes additionally allowed; different deny-list). -/
def mozCleanParts (root : HNode) : List String :=
  cleanLoop mozAllowedTags mozAllowedAttrs (nodeDescendants (scrubNode mozUnwanted root))

def mozCleanHtmlContent (root : HNode) : String :=
  String.intercalate "\n" (mozCleanParts root)

/-- developer_google `_clean_html_content`: same allow-lists as ahrefs, no
deny-list pass. -/
def googleCleanParts (root : HNode) : List String :=
  cleanLoop ahrefsAllowedTags ahrefsAllowedAttrs (nodeDescendants root)

def googleCleanHtmlContent (root : HNode) : String :=
  String.intercalate "\n" (googleCleanParts root)

/-- Python `s.split()` on the character sequence: split on runs of
whitespace, dropping empty pieces.  The accumulator holds the current token
reversed. -/
def pySplitWs : List Char → List Char → List String
  | [], acc => if acc.isEmpty then [] else [String.mk acc.reverse]
  | c :: cs, acc =>
    if c.isWhitespace then
      if acc.isEmpty then pySplitWs cs []
      else String.mk acc.reverse :: pySplitWs cs []
    else pySplitWs cs (c :: acc)

/-- Python `' '.join(s.split())`: collapse whitespace runs to single spaces,
dropping leading/trailing whitespace. -/
def collapseWs (s : String) : String :=
  String.intercalate " " (pySplitWs s.data [])

/-- Python `.strip()` on a character sequence: drop leading and trailing
whitespace. -/
def pyStrip (cs : List Char) : List Char :=
  ((cs.dropWhile Char.isWhitespace).reverse.dropWhile Char.isWhitespace).reverse

/-- `_create_excerpt` (moz form, taking the text): collapse whitespace; if the
result exceeds 70 characters, the first 70 characters (`text[:70]`, a
code-point slice) stripped of surrounding whitespace with an ellipsis
appended, else the text unmodified.  The ahrefs form first extracts the
plain text of the sanitized markup and then applies exactly this
computation. -/
def createExcerpt (s : String) : String :=
  let t := collapseWs s
  if 70 < t.length then String.mk (pyStrip (t.data.take 70)) ++ "..." else t

def MAX_RETRIES : Nat := 3

def RETRY_BACKOFF_FACTOR : Nat := 2

/-- Trace of `_fetch_with_retries`: the returned value, the number of request
attempts made, and the backoff sleeps (in seconds) performed between
attempts.  The random politeness delay before each request is not a backoff
and is not recorded. -/
structure FetchTrace where
  result : Option String
  attempts : Nat
  backoffs : List Nat
  deriving DecidableEq, Repr

/-- The `for attempt in range(MAX_RETRIES)` loop of `_fetch_with_retries`,
over the remaining attempt indices.  `outcome a` is the response of attempt
`a` (`none` = RequestException).  On failure, if `attempt + 1 == MAX_RETRIES`
the function returns `None`; otherwise it sleeps
`RETRY_BACKOFF_FACTOR ** attempt` and retries. -/
def fetchAttempts (outcome : Nat → Option String) : List Nat → FetchTrace
  | [] => ⟨none, 0, []⟩
  | a :: rest =>
    match outcome a with
    | some v => ⟨some v, 1, []⟩
    | none =>
      if rest.isEmpty then ⟨none, 1, []⟩
      else
        let r := fetchAttempts outcome rest
        ⟨r.result, r.attempts + 1, RETRY_BACKOFF_FACTOR ^ a :: r.backoffs⟩

/-- `_fetch_with_retries` for a URL whose per-attempt outcomes are given. -/
def fetchWithRetries (outcome : Nat → Option String) : FetchTrace :=
  fetchAttempts outcome (List.range MAX_RETRIES)

/-- One harvested article record, with the fields the scrapers store
(`category`, `link`, `titulo_entrada`, `url_thumbnail`, `full_content`,
`excerpt_content`, `date`, `favicon_url`). -/
structure Article where
  category : String
  link : String
  tituloEntrada : String
  urlThumbnail : String
  fullContent : String
  excerptContent : String
  date : String
  faviconUrl : String
  deriving DecidableEq, Repr

/-- One listing entry (`header.post-header`): the result of
`select_one('h3 a')` — `linkHref` is its `href` when the tag exists and has
one, and `linkText` its stripped text (the article title). -/
structure Header where
  linkHref : Option String
  linkText : String
  deriving DecidableEq, Repr

/-- A fetched and parsed listing page: its entry headers in document order,
and the absolute next-page URL resolved by the pagination locator logic,
`none` when the locator finds no further page. -/
structure ListingPage where
  headers : List Header
  nextUrl : Option String

/-- A fetched and parsed article page: the `select_one` result for the
content root, and the stripped text of the date tag when present. -/
structure ArticlePage where
  contentRoot : Option HNode
  dateText : Option String

/-- The environment of one scraper run: the configured category list
(`SEED_URLS`, in order), the network (a URL maps to the parsed page, `none`
modelling a fetch that failed after all retries), and the external
locale-dependent date parser (`_parse_date`). -/
structure Env where
  categories : List (String × String)
  fetchListingPage : String → Option ListingPage
  fetchArticle : String → Option ArticlePage
  parseDate : String → String

def AHREFS_FAVICON : String :=
  "https://ahrefs.com/blog/es/wp-content/themes/Ahrefs-4/images/favicons/favicon-48x48.png"

/-- Plain text that `_create_excerpt` extracts from the serialized
`full_content`: the kept fragments' texts joined by the same newline
separators (`get_text` of the reparsed fragment concatenation).  Attribute
filtering does not change an element's text. -/
def ahrefsExcerptSource : Option HNode → String
  | none => ""
  | some r =>
    String.intercalate "\n"
      (((nodeDescendants (scrubNode ahrefsUnwanted r)).filter
          (fun v => ahrefsAllowedTags.contains (tagOf v))).map nodeText)

/-- Construction of the `article_data` dict in the ahrefs scraper: content
cleaned when the content root is present, else the empty string; excerpt
derived from the full content; date text defaulting to `""` before parsing. -/
def buildArticle (env : Env) (cat l : String) (h : Header) (p : ArticlePage) : Article :=
  ⟨cat, l, h.linkText, "",
   (match p.contentRoot with
    | some r => ahrefsCleanHtmlContent r
    | none => ""),
   createExcerpt (ahrefsExcerptSource p.contentRoot),
   env.parseDate (p.dateText.getD ""),
   AHREFS_FAVICON⟩

/-- Result of scanning listing entries in update mode: the known-link set as
it stands after the scan, the newly collected records in discovery order, and
the article-page URLs for which an article fetch was issued. -/
structure ScanOut where
  existing : List String
  newArts : List Article
  fetched : List String

/-- The `for header in article_headers[:5]` loop of `run_update_scrape`
(the slice is applied by the caller): an entry without a link is skipped; an
entry whose link is already known breaks the loop; otherwise the article page
is fetched (a failed fetch skips the entry), the record is built and the link
added to the known set. -/
def scanEntries (env : Env) (cat : String) (existing : List String) : List Header → ScanOut
  | [] => ⟨existing, [], []⟩
  | h :: rest =>
    match h.linkHref with
    | none => scanEntries env cat existing rest
    | some l =>
      if l ∈ existing then ⟨existing, [], []⟩
      else
        match env.fetchArticle l with
        | none =>
          let r := scanEntries env cat existing rest
          ⟨r.existing, r.newArts, l :: r.fetched⟩
        | some page =>
          let r := scanEntries env cat (l :: existing) rest
          ⟨r.existing, buildArticle env cat l h page :: r.newArts, l :: r.fetched⟩

/-- Update-mode handling of one category: fetch the first listing page
(failure skips the category), skip it when it yields no entry headers, else
scan at most its first five entries. -/
def scanCategory (env : Env) (cat url : String) (existing : List String) : ScanOut :=
  match env.fetchListingPage url with
  | none => ⟨existing, [], []⟩
  | some page =>
    if page.headers.isEmpty then ⟨existing, [], []⟩
    else scanEntries env cat existing (page.headers.take 5)

/-- The category loop of `run_update_scrape`, threading the known-link set
and accumulating new records and fetch events in configured category order. -/
def scanCategories (env : Env) (existing : List String) : List (String × String) → ScanOut
  | [] => ⟨existing, [], []⟩
  | (c, u) :: rest =>
    let r1 := scanCategory env c u existing
    let r2 := scanCategories env r1.existing rest
    ⟨r2.existing, r1.newArts ++ r2.newArts, r1.fetched ++ r2.fetched⟩

/-- Persisted per-source collection (`{"titulo_sitio_web": ..., "articles": ...}`). -/
structure SiteData where
  titulo : String
  articles : List Article
  deriving DecidableEq, Repr

/-- The on-disk state: the database file and its backup file, `none` when the
file does not exist. -/
structure FS where
  db : Option SiteData
  bak : Option SiteData
  deriving DecidableEq, Repr

/-- `_backup_database`: copy the database file over the backup file when it
exists, else do nothing. -/
def backupDatabase (fs : FS) : FS :=
  match fs.db with
  | some _ => ⟨fs.db, fs.db⟩
  | none => fs

/-- `_load_existing_data`: the parsed file, or the empty default shape. -/
def loadExistingData (fs : FS) : SiteData :=
  fs.db.getD ⟨"Ahrefs", []⟩

/-- Observable outcome of one `run_update_scrape` call. -/
structure UpdateResult where
  fs : FS
  newArticles : List Article
  fetchedArticleLinks : List String
  savePerformed : Bool
  backupPerformed : Bool
  deriving DecidableEq, Repr

/-- `run_update_scrape`: back up the database (unconditionally, before
anything else), load the existing data, collect its link set, scan every
category's first listing page (at most five entries each, early-stopping on
the first known link), then — only if new records were found — prepend them
to the stored list and save; otherwise the store is left untouched. -/
def runUpdateScrape (env : Env) (fs0 : FS) : UpdateResult :=
  let fs1 := backupDatabase fs0
  let data := loadExistingData fs1
  let s := scanCategories env (data.articles.map (fun a => a.link)) env.categories
  if s.newArts.isEmpty then
    ⟨fs1, s.newArts, s.fetched, false, fs0.db.isSome⟩
  else
    ⟨⟨some ⟨data.titulo, s.newArts ++ data.articles⟩, fs1.bak⟩, s.newArts, s.fetched, true, fs0.db.isSome⟩

/-- Result of the initial-mode processing of a run of headers or pages:
the intra-run processed-link set and the records accumulated. -/
structure InitAcc where
  processed : List String
  arts : List Article

/-- The header loop of `run_initial_scrape` (no slice, no early stop): a link
already processed in this run is skipped (`continue`, not `break`); the link
is added to the processed set before the article fetch, so a failed fetch is
not retried later in the run. -/
def initHeaders (env : Env) (cat : String) (processed : List String) : List Header → InitAcc
  | [] => ⟨processed, []⟩
  | h :: rest =>
    match h.linkHref with
    | none => initHeaders env cat processed rest
    | some l =>
      if l ∈ processed then initHeaders env cat processed rest
      else
        match env.fetchArticle l with
        | none => initHeaders env cat (l :: processed) rest
        | some page =>
          let r := initHeaders env cat (l :: processed) rest
          ⟨r.processed, buildArticle env cat l h page :: r.arts⟩

/-- Outcome of one category's page-following loop in initial mode. -/
structure InitPagesOut where
  processed : List String
  arts : List Article
  pagesFetched : Nat
  natural : Bool
  deriving Repr

/-- The `while current_url:` pagination loop of ahrefs' `run_initial_scrape`.
The source loop has no page cap at all; it ends only when a listing fetch
fails or the next-page locator is absent.  The embedding therefore carries
explicit fuel: `natural = true` means the source loop's own exit condition
was reached within the fuel, `natural = false` means the fuel ran out with
the loop still going (the source would keep iterating). -/
def initPages (env : Env) (cat : String) (processed : List String) (url : String) :
    Nat → InitPagesOut
  | 0 => ⟨processed, [], 0, false⟩
  | fuel + 1 =>
    match env.fetchListingPage url with
    | none => ⟨processed, [], 1, true⟩
    | some page =>
      let a := initHeaders env cat processed page.headers
      match page.nextUrl with
      | none => ⟨a.processed, a.arts, 1, true⟩
      | some nu =>
        let r := initPages env cat a.processed nu fuel
        ⟨r.processed, a.arts ++ r.arts, r.pagesFetched + 1, r.natural⟩

/-- The category loop of `run_initial_scrape`. -/
def initCategories (env : Env) (processed : List String) (fuel : Nat) :
    List (String × String) → InitAcc
  | [] => ⟨processed, []⟩
  | (c, u) :: rest =>
    let r1 := initPages env c processed u fuel
    let r2 := initCategories env r1.processed fuel rest
    ⟨r2.processed, r1.arts ++ r2.arts⟩

/-- `run_initial_scrape`: accumulate all records over all categories, then
replace the store wholesale with `{"titulo_sitio_web": "Ahrefs",
"articles": all_articles}`.  No backup is taken in initial mode. -/
def runInitialScrape (env : Env) (fs0 : FS) (fuel : Nat) : FS × List Article :=
  let r := initCategories env [] fuel env.categories
  (⟨some ⟨"Ahrefs", r.arts⟩, fs0.bak⟩, r.arts)

/-- `main`: initial mode iff the database file does not exist; a present
file — even one holding an empty collection — runs update mode. -/
def mainRun (env : Env) (fs : FS) (fuel : Nat) : FS :=
  match fs.db with
  | none => (runInitialScrape env fs fuel).1
  | some _ => (runUpdateScrape env fs).fs

/-- Repeated update-mode runs. -/
def iterUpdate (env : Env) : Nat → FS → FS
  | 0, fs => fs
  | n + 1, fs => iterUpdate env n (runUpdateScrape env fs).fs

def MAX_PAGES_TO_SCRAPE : Nat := 5

/-- The `while current_url and page_count <= MAX_PAGES_TO_SCRAPE` loop of the
moz scraper, counting listing-page fetches; the remaining-page budget starts
at `MAX_PAGES_TO_SCRAPE` (`page_count` starts at 1). -/
def mozPagesInCategory (env : Env) : String → Nat → Nat
  | _, 0 => 0
  | url, r + 1 =>
    match env.fetchListingPage url with
    | none => 1
    | some page =>
      match page.nextUrl with
      | none => 1
      | some nu => 1 + mozPagesInCategory env nu r

/-- The `while True` load-more loop of the developer_google scraper.
`B k` says whether poll cycle `k` finds at least one displayed-and-enabled
"load more" control (in which case every such control is activated and
`clicked_any` is true).  The loop exits at the first cycle that activates
nothing.  The source loop is unbounded; fuel makes the embedding total, and
`some n` means the loop exited naturally after `n` cycles. -/
def loadMoreRounds (B : Nat → Bool) : Nat → Nat → Option Nat
  | _, 0 => none
  | k, fuel + 1 => if B k then loadMoreRounds B (k + 1) fuel else some (k + 1)

/-- The scroll-to-end loop of the el_placer_del_seo scraper.  `H 0` is the
initial page height; `H (i + 1)` the height measured after the `(i + 1)`-th
scroll and settle delay.  The loop exits at the first measurement equal to
the previous one.  `some n` means natural exit after `n` scroll iterations. -/
def scrollRounds (H : Nat → Nat) : Nat → Nat → Option Nat
  | _, 0 => none
  | i, fuel + 1 => if H (i + 1) = H i then some (i + 1) else scrollRounds H (i + 1) fuel

/-- One `div.devsite-card-wrapper` card of the developer_google listing, as
the relevant locators resolve on it. -/
structure GCard where
  linkHref : Option String
  titleText : Option String
  thumbSrc : Option String
  excerptText : Option String
  dateText : Option String

def GOOGLE_FAVICON : String :=
  "https://www.gstatic.com/devrel-devsite/prod/vc12d84b6edb3e25e1619b575cf813e1849a1c95098b711a6c56ab3968c9a4fa9/developers/images/favicon-new.png"

/-- developer_google `_fetch_article_content`: the cleaned content when the
fetch succeeds and the content root is present, the empty string otherwise
(both on exhausted retries and on an absent `div.devsite-article-body`). -/
def googleFetchArticleContent (env : Env) (url : String) : String :=
  match env.fetchArticle url with
  | none => ""
  | some p =>
    match p.contentRoot with
    | none => ""
    | some r => googleCleanHtmlContent r

/-- Processing of one card in developer_google's `run_initial_scrape`:
skip when the link locator fails or the link was processed in this run; drop
the record when the fetched content is empty (`if not full_content:
continue`); when the excerpt locator is absent the code calls
`self._create_excerpt`, a method the class never defines, so an
AttributeError is raised and the per-card handler drops the record; absent
title/thumbnail/date locators get fallback values. -/
def googleProcessCard (env : Env) (cat : String) (processed : List String) (card : GCard) :
    Option Article :=
  match card.linkHref with
  | none => none
  | some l =>
    if l ∈ processed then none
    else
      let fullContent := googleFetchArticleContent env l
      if fullContent = "" then none
      else
        match card.excerptText with
        | none => none
        | some ex =>
          some ⟨cat, l, card.titleText.getD "Sin Título", card.thumbSrc.getD "", fullContent,
                ex,
                (match card.dateText with
                 | some d => env.parseDate d
                 | none => ""),
                GOOGLE_FAVICON⟩

/-- The links of a header list, in order (entries without a link locator
contribute nothing). -/
def headerLinks (hs : List Header) : List String :=
  hs.filterMap (fun h => h.linkHref)

/-- A run of listing entries that are all "new" for the scan: each has a
link, the link is not yet known at the point the entry is inspected (so the
links are pairwise distinct and none is known initially), and its article
page is fetchable. -/
def FreshChain (env : Env) : List String → List Header → Prop
  | _, [] => True
  | existing, h :: rest =>
    ∃ l, h.linkHref = some l ∧ l ∉ existing ∧ (env.fetchArticle l).isSome = true ∧
      FreshChain env (l :: existing) rest

/-- The boundary after a fresh run: either the listing window is exhausted,
or the next entry's link is already known. -/
def BreakCond : List String → List Header → Prop
  | _, [] => True
  | existing, h :: _ => ∃ l, h.linkHref = some l ∧ l ∈ existing

theorem buildArticle_link (env : Env) (cat l : String) (h : Header) (p : ArticlePage) :
    (buildArticle env cat l h p).link = l := rfl

theorem breakCond_mono {E E' : List String} {tail : List Header}
    (hsub : ∀ x, x ∈ E → x ∈ E') (hbc : BreakCond E tail) : BreakCond E' tail := by
  cases tail with
  | nil => trivial
  | cons hd t =>
    obtain ⟨l, hl, hm⟩ := hbc
    exact ⟨l, hl, hsub l hm⟩

theorem freshChain_excl (env : Env) :
    ∀ front existing, FreshChain env existing front →
      ∀ x ∈ existing, x ∉ headerLinks front := by
  intro front
  induction front with
  | nil => intro existing _ x _ hx; simp [headerLinks] at hx
  | cons h rest ih =>
    intro existing hfc x hxE hx
    obtain ⟨l, hl, hlni, _, hchain⟩ := hfc
    rw [headerLinks, List.filterMap_cons, hl] at hx
    rcases List.mem_cons.mp hx with h1 | h2
    · exact hlni (h1 ▸ hxE)
    · exact ih (l :: existing) hchain x (List.mem_cons_of_mem l hxE) h2

theorem scanEntries_run (env : Env) (cat : String) :
    ∀ front existing tail, FreshChain env existing front → BreakCond existing tail →
      (scanEntries env cat existing (front ++ tail)).fetched = headerLinks front ∧
      ((scanEntries env cat existing (front ++ tail)).newArts.map (fun a => a.link)
        = headerLinks front) ∧
      (scanEntries env cat existing (front ++ tail)).newArts.length = front.length := by
  intro front
  induction front with
  | nil =>
    intro existing tail _ hbr
    cases tail with
    | nil => simp [scanEntries, headerLinks]
    | cons h t =>
      obtain ⟨l, hl, hm⟩ := hbr
      simp [scanEntries, hl, hm, headerLinks]
  | cons h rest ih =>
    intro existing tail hfc hbr
    obtain ⟨l, hl, hlni, hsome, hchain⟩ := hfc
    obtain ⟨page, hf⟩ := Option.isSome_iff_exists.mp hsome
    have hrec := ih (l :: existing) tail hchain
      (breakCond_mono (fun x hx => List.mem_cons_of_mem l hx) hbr)
    simp only [List.cons_append, scanEntries, hl, hlni, if_neg hlni, hf]
    rw [headerLinks, List.filterMap_cons, hl]
    refine ⟨?_, ?_, ?_⟩
    · simpa using hrec.1
    · simpa [buildArticle_link] using hrec.2.1
    · simpa using hrec.2.2

theorem scanEntries_existing_eq (env : Env) (cat : String) :
    ∀ hs existing,
      (scanEntries env cat existing hs).existing
        = ((scanEntries env cat existing hs).newArts.map (fun a => a.link)).reverse ++ existing := by
  intro hs
  induction hs with
  | nil => intro existing; simp [scanEntries]
  | cons h rest ih =>
    intro existing
    cases hl : h.linkHref with
    | none => simpa [scanEntries, hl] using ih existing
    | some l =>
      by_cases hmem : l ∈ existing
      · simp [scanEntries, hl, hmem]
      · cases hf : env.fetchArticle l with
        | none => simpa [scanEntries, hl, hmem, hf] using ih existing
        | some page =>
          have := ih (l :: existing)
          simp only [scanEntries, hl, if_neg hmem, hf, List.map_cons, buildArticle_link,
            List.reverse_cons, List.append_assoc, List.singleton_append]
          simpa using this

theorem scanEntries_nodup (env : Env) (cat : String) :
    ∀ hs existing,
      (((scanEntries env cat existing hs).newArts.map (fun a => a.link)).Nodup) ∧
      (∀ l ∈ (scanEntries env cat existing hs).newArts.map (fun a => a.link), l ∉ existing) := by
  intro hs
  induction hs with
  | nil => intro existing; simp [scanEntries]
  | cons h rest ih =>
    intro existing
    cases hl : h.linkHref with
    | none => simpa [scanEntries, hl] using ih existing
    | some l =>
      by_cases hmem : l ∈ existing
      · simp [scanEntries, hl, hmem]
      · cases hf : env.fetchArticle l with
        | none => simpa [scanEntries, hl, hmem, hf] using ih existing
        | some page =>
          obtain ⟨hnd, hni⟩ := ih (l :: existing)
          simp only [scanEntries, hl, if_neg hmem, hf, List.map_cons, buildArticle_link]
          constructor
          · refine List.nodup_cons.mpr ⟨?_, hnd⟩
            intro hcon
            exact (hni l hcon) (List.mem_cons_self l existing)
          · intro x hx
            rcases List.mem_cons.mp hx with h1 | h2
            · exact h1 ▸ hmem
            · intro hxE
              exact (hni x h2) (List.mem_cons_of_mem l hxE)

theorem scanEntries_stable (env : Env) (cat : String) :
    ∀ hs E1 E2, (∀ x, x ∈ E1 → x ∈ E2) →
      (∀ l ∈ (scanEntries env cat E1 hs).newArts.map (fun a => a.link), l ∈ E2) →
      (scanEntries env cat E2 hs).newArts = [] ∧ (scanEntries env cat E2 hs).existing = E2 := by
  intro hs
  induction hs with
  | nil => intro E1 E2 _ _; simp [scanEntries]
  | cons h rest ih =>
    intro E1 E2 hsub hlinks
    cases hl : h.linkHref with
    | none =>
      have hrest := ih E1 E2 hsub (by
        intro l hlmem
        refine hlinks l ?_
        simpa [scanEntries, hl] using hlmem)
      simpa [scanEntries, hl] using hrest
    | some l =>
      by_cases h2 : l ∈ E2
      · simp [scanEntries, hl, h2]
      · have h1 : l ∉ E1 := fun hcon => h2 (hsub l hcon)
        cases hf : env.fetchArticle l with
        | none =>
          have hrest := ih E1 E2 hsub (by
            intro x hx
            refine hlinks x ?_
            simpa [scanEntries, hl, h1, hf] using hx)
          simpa [scanEntries, hl, h2, hf] using hrest
        | some page =>
          exfalso
          refine h2 (hlinks l ?_)
          simp [scanEntries, hl, h1, hf, buildArticle_link]

theorem scanEntries_fetched_sub (env : Env) (cat : String) :
    ∀ hs existing,
      (∀ l ∈ (scanEntries env cat existing hs).fetched, l ∈ headerLinks hs) ∧
      (∀ a ∈ (scanEntries env cat existing hs).newArts,
        a.link ∈ (scanEntries env cat existing hs).fetched) := by
  intro hs
  induction hs with
  | nil => intro existing; simp [scanEntries]
  | cons h rest ih =>
    intro existing
    cases hl : h.linkHref with
    | none =>
      have := ih existing
      constructor
      · intro l hlm
        have hmem := this.1 l (by simpa [scanEntries, hl] using hlm)
        simp [headerLinks, List.filterMap_cons, hl]
        simpa [headerLinks] using hmem
      · intro a ha
        simpa [scanEntries, hl] using this.2 a (by simpa [scanEntries, hl] using ha)
    | some l =>
      by_cases hmem : l ∈ existing
      · simp [scanEntries, hl, hmem]
      · cases hf : env.fetchArticle l with
        | none =>
          have := ih existing
          constructor
          · intro x hx
            simp only [scanEntries, hl, if_neg hmem, hf] at hx
            rcases List.mem_cons.mp hx with h1 | h2
            · simp [headerLinks, List.filterMap_cons, hl, h1]
            · have := this.1 x h2
              simp [headerLinks, List.filterMap_cons, hl]
              right
              simpa [headerLinks] using this
          · intro a ha
            simp only [scanEntries, hl, if_neg hmem, hf] at ha ⊢
            exact List.mem_cons_of_mem l (this.2 a ha)
        | some page =>
          have := ih (l :: existing)
          constructor
          · intro x hx
            simp only [scanEntries, hl, if_neg hmem, hf] at hx
            rcases List.mem_cons.mp hx with h1 | h2
            · simp [headerLinks, List.filterMap_cons, hl, h1]
            · have := this.1 x h2
              simp [headerLinks, List.filterMap_cons, hl]
              right
              simpa [headerLinks] using this
          · intro a ha
            simp only [scanEntries, hl, if_neg hmem, hf] at ha ⊢
            rcases List.mem_cons.mp ha with h1 | h2
            · rw [h1, buildArticle_link]
              exact List.mem_cons_self _ _
            · exact List.mem_cons_of_mem l (this.2 a h2)

theorem scanCategory_existing_eq (env : Env) (cat url : String) (existing : List String) :
    (scanCategory env cat url existing).existing
      = ((scanCategory env cat url existing).newArts.map (fun a => a.link)).reverse ++ existing := by
  cases hp : env.fetchListingPage url with
  | none => simp [scanCategory, hp]
  | some page =>
    by_cases he : page.headers.isEmpty
    · simp [scanCategory, hp, he]
    · simpa [scanCategory, hp, he] using
        scanEntries_existing_eq env cat (page.headers.take 5) existing

theorem scanCategory_nodup (env : Env) (cat url : String) (existing : List String) :
    (((scanCategory env cat url existing).newArts.map (fun a => a.link)).Nodup) ∧
    (∀ l ∈ (scanCategory env cat url existing).newArts.map (fun a => a.link), l ∉ existing) := by
  cases hp : env.fetchListingPage url with
  | none => simp [scanCategory, hp]
  | some page =>
    by_cases he : page.headers.isEmpty
    · simp [scanCategory, hp, he]
    · simpa [scanCategory, hp, he] using
        scanEntries_nodup env cat (page.headers.take 5) existing

theorem scanCategory_stable (env : Env) (cat url : String) (E1 E2 : List String)
    (hsub : ∀ x, x ∈ E1 → x ∈ E2)
    (hlinks : ∀ l ∈ (scanCategory env cat url E1).newArts.map (fun a => a.link), l ∈ E2) :
    (scanCategory env cat url E2).newArts = [] ∧ (scanCategory env cat url E2).existing = E2 := by
  cases hp : env.fetchListingPage url with
  | none => simp [scanCategory, hp]
  | some page =>
    by_cases he : page.headers.isEmpty
    · simp [scanCategory, hp, he]
    · have := scanEntries_stable env cat (page.headers.take 5) E1 E2 hsub (by
        intro l hl
        refine hlinks l ?_
        simpa [scanCategory, hp, he] using hl)
      simpa [scanCategory, hp, he] using this

theorem scanCategory_fetched_sub (env : Env) (cat url : String) (existing : List String) :
    (∀ l ∈ (scanCategory env cat url existing).fetched,
       ∃ page, env.fetchListingPage url = some page ∧ l ∈ headerLinks (page.headers.take 5)) ∧
    (∀ a ∈ (scanCategory env cat url existing).newArts,
       a.link ∈ (scanCategory env cat url existing).fetched) := by
  cases hp : env.fetchListingPage url with
  | none => simp [scanCategory, hp]
  | some page =>
    by_cases he : page.headers.isEmpty
    · simp [scanCategory, hp, he]
    · have := scanEntries_fetched_sub env cat (page.headers.take 5) existing
      constructor
      · intro l hl
        exact ⟨page, rfl, this.1 l (by simpa [scanCategory, hp, he] using hl)⟩
      · intro a ha
        simpa [scanCategory, hp, he] using
          this.2 a (by simpa [scanCategory, hp, he] using ha)

theorem scanCategories_existing_eq (env : Env) :
    ∀ cats existing,
      (scanCategories env existing cats).existing
        = ((scanCategories env existing cats).newArts.map (fun a => a.link)).reverse ++ existing := by
  intro cats
  induction cats with
  | nil => intro existing; simp [scanCategories]
  | cons cu rest ih =>
    intro existing
    obtain ⟨c, u⟩ := cu
    simp only [scanCategories]
    rw [ih, scanCategory_existing_eq]
    simp [List.append_assoc]

theorem scanCategories_nodup (env : Env) :
    ∀ cats existing,
      (((scanCategories env existing cats).newArts.map (fun a => a.link)).Nodup) ∧
      (∀ l ∈ (scanCategories env existing cats).newArts.map (fun a => a.link), l ∉ existing) := by
  intro cats
  induction cats with
  | nil => intro existing; simp [scanCategories]
  | cons cu rest ih =>
    intro existing
    obtain ⟨c, u⟩ := cu
    have h1 := scanCategory_nodup env c u existing
    have h2 := ih (scanCategory env c u existing).existing
    have hex := scanCategory_existing_eq env c u existing
    simp only [scanCategories, List.map_append, List.nodup_append]
    refine ⟨⟨h1.1, h2.1, ?_⟩, ?_⟩
    · intro x hx hx2
      have := h2.2 x hx2
      rw [hex] at this
      exact this (List.mem_append_left _ (List.mem_reverse.mpr hx))
    · intro x hx
      rcases List.mem_append.mp hx with hl | hr
      · exact h1.2 x hl
      · intro hxE
        have := h2.2 x hr
        rw [hex] at this
        exact this (List.mem_append_right _ hxE)

theorem scanCategories_stable (env : Env) :
    ∀ cats E1 E2, (∀ x, x ∈ E1 → x ∈ E2) →
      (∀ l ∈ (scanCategories env E1 cats).newArts.map (fun a => a.link), l ∈ E2) →
      (scanCategories env E2 cats).newArts = [] ∧ (scanCategories env E2 cats).existing = E2 := by
  intro cats
  induction cats with
  | nil => intro E1 E2 _ _; simp [scanCategories]
  | cons cu rest ih =>
    intro E1 E2 hsub hlinks
    obtain ⟨c, u⟩ := cu
    have hcatlinks : ∀ l ∈ (scanCategory env c u E1).newArts.map (fun a => a.link), l ∈ E2 := by
      intro l hl
      refine hlinks l ?_
      simp only [scanCategories, List.map_append]
      exact List.mem_append_left _ hl
    have hcat := scanCategory_stable env c u E1 E2 hsub hcatlinks
    have hex1 := scanCategory_existing_eq env c u E1
    have hsub1 : ∀ x, x ∈ (scanCategory env c u E1).existing → x ∈ E2 := by
      intro x hx
      rw [hex1] at hx
      rcases List.mem_append.mp hx with hl | hr
      · exact hcatlinks x (List.mem_reverse.mp hl)
      · exact hsub x hr
    have hrest := ih (scanCategory env c u E1).existing E2 hsub1 (by
      intro l hl
      refine hlinks l ?_
      simp only [scanCategories, List.map_append]
      exact List.mem_append_right _ hl)
    constructor
    · simp only [scanCategories, hcat.1, hcat.2, hrest.1, List.append_nil]
    · simp only [scanCategories, hcat.2, hrest.2]

theorem scanCategories_fetched_sub (env : Env) :
    ∀ cats existing,
      (∀ l ∈ (scanCategories env existing cats).fetched,
         ∃ c u page, (c, u) ∈ cats ∧ env.fetchListingPage u = some page ∧
           l ∈ headerLinks (page.headers.take 5)) ∧
      (∀ a ∈ (scanCategories env existing cats).newArts,
         a.link ∈ (scanCategories env existing cats).fetched) := by
  intro cats
  induction cats with
  | nil => intro existing; simp [scanCategories]
  | cons cu rest ih =>
    intro existing
    obtain ⟨c, u⟩ := cu
    have h1 := scanCategory_fetched_sub env c u existing
    have h2 := ih (scanCategory env c u existing).existing
    constructor
    · intro l hl
      simp only [scanCategories] at hl
      rcases List.mem_append.mp hl with ha | hb
      · obtain ⟨page, hp, hmem⟩ := h1.1 l ha
        exact ⟨c, u, page, List.mem_cons_self _ _, hp, hmem⟩
      · obtain ⟨c', u', page, hcu, hp, hmem⟩ := h2.1 l hb
        exact ⟨c', u', page, List.mem_cons_of_mem _ hcu, hp, hmem⟩
    · intro a ha
      simp only [scanCategories] at ha ⊢
      rcases List.mem_append.mp ha with hl | hr
      · exact List.mem_append_left _ (h1.2 a hl)
      · exact List.mem_append_right _ (h2.2 a hr)

theorem backupDatabase_db (fs : FS) : (backupDatabase fs).db = fs.db := by
  cases h : fs.db <;> simp [backupDatabase, h]

theorem loadExistingData_backup (fs : FS) :
    loadExistingData (backupDatabase fs) = loadExistingData fs := by
  simp [loadExistingData, backupDatabase_db]

theorem runUpdate_newArticles (env : Env) (fs : FS) :
    (runUpdateScrape env fs).newArticles
      = (scanCategories env ((loadExistingData fs).articles.map (fun a => a.link))
          env.categories).newArts := by
  simp only [runUpdateScrape, loadExistingData_backup]
  split <;> rfl

theorem runUpdate_fetched (env : Env) (fs : FS) :
    (runUpdateScrape env fs).fetchedArticleLinks
      = (scanCategories env ((loadExistingData fs).articles.map (fun a => a.link))
          env.categories).fetched := by
  simp only [runUpdateScrape, loadExistingData_backup]
  split <;> rfl

theorem runUpdate_backupPerformed (env : Env) (fs : FS) :
    (runUpdateScrape env fs).backupPerformed = fs.db.isSome := by
  simp only [runUpdateScrape]
  split <;> rfl

theorem runUpdate_db (env : Env) (fs : FS) :
    (runUpdateScrape env fs).fs.db
      = (if (runUpdateScrape env fs).newArticles.isEmpty then fs.db
         else some ⟨(loadExistingData fs).titulo,
                    (runUpdateScrape env fs).newArticles ++ (loadExistingData fs).articles⟩) := by
  rw [runUpdate_newArticles]
  by_cases hE : (scanCategories env ((loadExistingData fs).articles.map (fun a => a.link))
      env.categories).newArts.isEmpty
  · simp [runUpdateScrape, loadExistingData_backup, hE, backupDatabase_db]
  · simp [runUpdateScrape, loadExistingData_backup, hE]

theorem runUpdate_save (env : Env) (fs : FS) :
    (runUpdateScrape env fs).savePerformed = !(runUpdateScrape env fs).newArticles.isEmpty := by
  rw [runUpdate_newArticles]
  by_cases hE : (scanCategories env ((loadExistingData fs).articles.map (fun a => a.link))
      env.categories).newArts.isEmpty
  · simp [runUpdateScrape, loadExistingData_backup, hE]
  · simp [runUpdateScrape, loadExistingData_backup, hE]

theorem cleanLoop_eq (tagsA attrsA : List String) :
    ∀ ns, cleanLoop tagsA attrsA ns
      = (ns.filter (fun v => tagsA.contains (tagOf v))).map
          (fun v => serializeNode (filterOwnAttrs attrsA v)) := by
  intro ns
  induction ns with
  | nil => simp [cleanLoop]
  | cons v rest ih =>
    simp only [cleanLoop, ih, List.filter_cons]
    by_cases hv : tagOf v ∈ tagsA
    · simp [hv]
    · simp [hv]

theorem filterOwnAttrs_attrs (attrsA : List String) (v : HNode) :
    ∀ pr ∈ attrsOf (filterOwnAttrs attrsA v), pr.1 ∈ attrsA := by
  intro pr hpr
  cases v with
  | text s => simp [filterOwnAttrs, attrsOf] at hpr
  | elem t a cs =>
    simp only [filterOwnAttrs, attrsOf, List.mem_filter] at hpr
    simpa using hpr.2

theorem initHeaders_inv (env : Env) (cat : String) :
    ∀ hs P,
      (((initHeaders env cat P hs).arts.map (fun a => a.link)).Nodup) ∧
      (∀ a ∈ (initHeaders env cat P hs).arts, a.link ∉ P) ∧
      (∀ a ∈ (initHeaders env cat P hs).arts, a.link ∈ (initHeaders env cat P hs).processed) ∧
      (∀ x ∈ P, x ∈ (initHeaders env cat P hs).processed) := by
  intro hs
  induction hs with
  | nil => intro P; simp [initHeaders]
  | cons h rest ih =>
    intro P
    cases hl : h.linkHref with
    | none => simpa [initHeaders, hl] using ih P
    | some l =>
      by_cases hmem : l ∈ P
      · simpa [initHeaders, hl, hmem] using ih P
      · cases hf : env.fetchArticle l with
        | none =>
          obtain ⟨h1, h2, h3, h4⟩ := ih (l :: P)
          simp only [initHeaders, hl, if_neg hmem, hf]
          exact ⟨h1, fun a ha conh => h2 a ha (List.mem_cons_of_mem l conh), h3,
                 fun x hx => h4 x (List.mem_cons_of_mem l hx)⟩
        | some page =>
          obtain ⟨h1, h2, h3, h4⟩ := ih (l :: P)
          simp only [initHeaders, hl, if_neg hmem, hf, List.map_cons, buildArticle_link]
          refine ⟨?_, ?_, ?_, ?_⟩
          · refine List.nodup_cons.mpr ⟨?_, h1⟩
            intro hcon
            obtain ⟨a, ha, halink⟩ := List.mem_map.mp hcon
            exact h2 a ha (halink ▸ List.mem_cons_self l P)
          · intro a ha
            rcases List.mem_cons.mp ha with h5 | h6
            · rw [h5, buildArticle_link]; exact hmem
            · intro hcon
              exact h2 a h6 (List.mem_cons_of_mem l hcon)
          · intro a ha
            rcases List.mem_cons.mp ha with h5 | h6
            · rw [h5, buildArticle_link]
              exact h4 l (List.mem_cons_self l P)
            · exact h3 a h6
          · intro x hx
            exact h4 x (List.mem_cons_of_mem l hx)

theorem initPages_inv (env : Env) (cat : String) :
    ∀ fuel url P,
      (((initPages env cat P url fuel).arts.map (fun a => a.link)).Nodup) ∧
      (∀ a ∈ (initPages env cat P url fuel).arts, a.link ∉ P) ∧
      (∀ a ∈ (initPages env cat P url fuel).arts,
        a.link ∈ (initPages env cat P url fuel).processed) ∧
      (∀ x ∈ P, x ∈ (initPages env cat P url fuel).processed) := by
  intro fuel
  induction fuel with
  | zero => intro url P; simp [initPages]
  | succ n ih =>
    intro url P
    cases hp : env.fetchListingPage url with
    | none => simp [initPages, hp]
    | some page =>
      obtain ⟨h1, h2, h3, h4⟩ := initHeaders_inv env cat page.headers P
      cases hn : page.nextUrl with
      | none => simpa [initPages, hp, hn] using ⟨h1, h2, h3, h4⟩
      | some nu =>
        obtain ⟨g1, g2, g3, g4⟩ := ih nu (initHeaders env cat P page.headers).processed
        simp only [initPages, hp, hn, List.map_append]
        refine ⟨?_, ?_, ?_, ?_⟩
        · refine List.nodup_append.mpr ⟨h1, g1, ?_⟩
          intro x hx hx2
          obtain ⟨a, ha, halink⟩ := List.mem_map.mp hx
          obtain ⟨b, hb, hblink⟩ := List.mem_map.mp hx2
          exact g2 b hb (hblink.symm ▸ halink ▸ h3 a ha)
        · intro a ha
          rcases List.mem_append.mp ha with h5 | h6
          · exact h2 a h5
          · intro hcon
            exact g2 a h6 (h4 a.link hcon)
        · intro a ha
          rcases List.mem_append.mp ha with h5 | h6
          · exact g4 a.link (h3 a h5)
          · exact g3 a h6
        · intro x hx
          exact g4 x (h4 x hx)

theorem initCategories_inv (env : Env) (fuel : Nat) :
    ∀ cats P,
      (((initCategories env P fuel cats).arts.map (fun a => a.link)).Nodup) ∧
      (∀ a ∈ (initCategories env P fuel cats).arts, a.link ∉ P) ∧
      (∀ a ∈ (initCategories env P fuel cats).arts,
        a.link ∈ (initCategories env P fuel cats).processed) ∧
      (∀ x ∈ P, x ∈ (initCategories env P fuel cats).processed) := by
  intro cats
  induction cats with
  | nil => intro P; simp [initCategories]
  | cons cu rest ih =>
    intro P
    obtain ⟨c, u⟩ := cu
    obtain ⟨h1, h2, h3, h4⟩ := initPages_inv env c fuel u P
    obtain ⟨g1, g2, g3, g4⟩ := ih (initPages env c P u fuel).processed
    simp only [initCategories, List.map_append]
    refine ⟨?_, ?_, ?_, ?_⟩
    · refine List.nodup_append.mpr ⟨h1, g1, ?_⟩
      intro x hx hx2
      obtain ⟨a, ha, halink⟩ := List.mem_map.mp hx
      obtain ⟨b, hb, hblink⟩ := List.mem_map.mp hx2
      exact g2 b hb (hblink.symm ▸ halink ▸ h3 a ha)
    · intro a ha
      rcases List.mem_append.mp ha with h5 | h6
      · exact h2 a h5
      · intro hcon
        exact g2 a h6 (h4 a.link hcon)
    · intro a ha
      rcases List.mem_append.mp ha with h5 | h6
      · exact g4 a.link (h3 a h5)
      · exact g3 a h6
    · intro x hx
      exact g4 x (h4 x hx)

theorem mozPages_le (env : Env) :
    ∀ budget url, mozPagesInCategory env url budget ≤ budget := by
  intro budget
  induction budget with
  | zero => intro url; simp [mozPagesInCategory]
  | succ n ih =>
    intro url
    cases hp : env.fetchListingPage url with
    | none => simp [mozPagesInCategory, hp]
    | some page =>
      cases hn : page.nextUrl with
      | none => simp [mozPagesInCategory, hp, hn]
      | some nu =>
        simp only [mozPagesInCategory, hp, hn]
        have := ih nu
        omega

theorem loadMoreRounds_exit (B : Nat → Bool) :
    ∀ d k fuel, (∀ j, j < d → B (k + j) = true) → B (k + d) = false → d < fuel →
      loadMoreRounds B k fuel = some (k + d + 1) := by
  intro d
  induction d with
  | zero =>
    intro k fuel _ hfalse hfuel
    cases fuel with
    | zero => omega
    | succ m => simp only [loadMoreRounds]; simp at hfalse; simp [hfalse]
  | succ n ih =>
    intro k fuel htrue hfalse hfuel
    cases fuel with
    | zero => omega
    | succ m =>
      have hk : B k = true := by simpa using htrue 0 (Nat.succ_pos n)
      simp only [loadMoreRounds, hk, if_true]
      have := ih (k + 1) m (fun j hj => by
        have := htrue (j + 1) (by omega)
        simpa [Nat.add_assoc, Nat.add_comm 1 j] using this)
        (by simpa [Nat.add_assoc, Nat.add_comm 1 n] using hfalse) (by omega)
      rw [this]
      congr 1
      omega

theorem scrollRounds_exit (H : Nat → Nat) :
    ∀ d i fuel, (∀ j, j < d → H (i + j + 1) ≠ H (i + j)) → H (i + d + 1) = H (i + d) →
      d < fuel → scrollRounds H i fuel = some (i + d + 1) := by
  intro d
  induction d with
  | zero =>
    intro i fuel _ heq hfuel
    cases fuel with
    | zero => omega
    | succ m => simp only [scrollRounds]; simp at heq; simp [heq]
  | succ n ih =>
    intro i fuel hne heq hfuel
    cases fuel with
    | zero => omega
    | succ m =>
      have hi : H (i + 1) ≠ H i := by simpa using hne 0 (Nat.succ_pos n)
      simp only [scrollRounds, hi, if_neg hi]
      have := ih (i + 1) m (fun j hj => by
        have := hne (j + 1) (by omega)
        have e1 : i + (j + 1) = i + 1 + j := by omega
        simpa [e1] using this)
        (by
          have e1 : i + (n + 1) = i + 1 + n := by omega
          simpa [e1] using heq) (by omega)
      have e2 : i + 1 + n = i + (n + 1) := by omega
      rw [e2] at this
      exact this

/-- C5: for every URL whose retrieval transiently fails on all attempts, the
fetcher makes exactly MAX_RETRIES = 3 attempts, with exponential backoff
`base ^ attempt` slept between consecutive attempts — a strictly increasing
sequence of backoff delays — and returns failure only after all attempts; a
success on an earlier attempt returns the content immediately with no
further attempts (and hence fewer backoff sleeps). -/
theorem fetch_retry_behavior (outcome : Nat → Option String) :
    ((∀ a, a < MAX_RETRIES → outcome a = none) →
      (fetchWithRetries outcome).result = none ∧
      (fetchWithRetries outcome).attempts = MAX_RETRIES ∧
      (fetchWithRetries outcome).backoffs
        = [RETRY_BACKOFF_FACTOR ^ 0, RETRY_BACKOFF_FACTOR ^ 1] ∧
      List.Chain' (fun x y => x < y) (fetchWithRetries outcome).backoffs) ∧
    (∀ i v, i < MAX_RETRIES → (∀ j, j < i → outcome j = none) → outcome i = some v →
      (fetchWithRetries outcome).result = some v ∧
      (fetchWithRetries outcome).attempts = i + 1 ∧
      (fetchWithRetries outcome).backoffs.length = i) := by
  have hr : List.range MAX_RETRIES = [0, 1, 2] := by decide
  constructor
  · intro h
    have h0 := h 0 (by decide)
    have h1 := h 1 (by decide)
    have h2 := h 2 (by decide)
    refine ⟨?_, ?_, ?_, ?_⟩ <;>
      simp [fetchWithRetries, hr, fetchAttempts, h0, h1, h2, MAX_RETRIES, RETRY_BACKOFF_FACTOR]
  · intro i v hi hprev hsucc
    have hi3 : i < 3 := hi
    interval_cases i
    · simp [fetchWithRetries, hr, fetchAttempts, hsucc]
    · have h0 := hprev 0 (by decide)
      simp [fetchWithRetries, hr, fetchAttempts, h0, hsucc]
    · have h0 := hprev 0 (by decide)
      have h1 := hprev 1 (by decide)
      simp [fetchWithRetries, hr, fetchAttempts, h0, h1, hsucc, MAX_RETRIES]

/-- Witness for C5: an always-failing outcome makes exactly 3 attempts with
backoffs [1, 2] and no result; an outcome succeeding at the second attempt
stops after 2 attempts with the content. -/
theorem fetch_retry_behavior_wit :
    (fetchWithRetries (fun _ => none)).result = none ∧
    (fetchWithRetries (fun _ => none)).attempts = MAX_RETRIES ∧
    (fetchWithRetries (fun _ => none)).backoffs
      = [RETRY_BACKOFF_FACTOR ^ 0, RETRY_BACKOFF_FACTOR ^ 1] ∧
    (fetchWithRetries (fun n => if n = 1 then some "ok" else none)).result = some "ok" ∧
    (fetchWithRetries (fun n => if n = 1 then some "ok" else none)).attempts = 2 := by
  have hfail := (fetch_retry_behavior (fun _ => none)).1 (fun a _ => rfl)
  have hok := (fetch_retry_behavior (fun n => if n = 1 then some "ok" else none)).2 1 "ok"
    (by decide) (by intro j hj; interval_cases j; decide) (by decide)
  exact ⟨hfail.1, hfail.2.1, hfail.2.2.1, hok.1, hok.2.1⟩

/-- A 200-character derived text (whitespace already collapsed) with a space
at index 69. -/
def c6input : String :=
  String.mk (List.replicate 69 'a' ++ ' ' :: List.replicate 130 'b')

set_option maxRecDepth 8192 in
/-- Counterexample to C6 as stated: this 200-character derived text does not
yield a 70-character prefix plus ellipsis — the truncated prefix is stripped,
leaving 69 characters (result length 72, not 73). -/
theorem excerpt_len200_cex :
    c6input.length = 200 ∧ collapseWs c6input = c6input ∧
    createExcerpt c6input ≠ c6input.take 70 ++ "..." ∧
    (createExcerpt c6input).length = 72 := by
  refine ⟨by decide, by decide, by decide, by decide⟩

theorem dropWhile_head_eq (p : Char → Bool) :
    ∀ cs : List Char, (∀ c, cs.head? = some c → p c = false) → cs.dropWhile p = cs := by
  intro cs h
  cases cs with
  | nil => rfl
  | cons c rest =>
    have := h c rfl
    simp [List.dropWhile, this]

theorem pyStrip_eq (cs : List Char)
    (h1 : ∀ c, cs.head? = some c → c.isWhitespace = false)
    (h2 : ∀ c, cs.getLast? = some c → c.isWhitespace = false) : pyStrip cs = cs := by
  unfold pyStrip
  rw [dropWhile_head_eq Char.isWhitespace cs h1]
  rw [dropWhile_head_eq Char.isWhitespace cs.reverse (by
    intro c hc
    exact h2 c (by simpa [List.head?_reverse] using hc))]
  exact List.reverse_reverse cs

/-- C6 (amended): on a derived (whitespace-collapsed) text of length at most
70 the excerpt is the text unmodified with no suffix; on longer text it is
the first 70 characters, stripped of surrounding whitespace, plus the
ellipsis — which is the full 70-character prefix (total length 73) exactly
when the slice neither starts nor ends in whitespace. -/
theorem excerpt_truncation (s : String) :
    (collapseWs s = s → s.length ≤ 70 → createExcerpt s = s) ∧
    (collapseWs s = s → 70 < s.length →
      createExcerpt s = String.mk (pyStrip (s.data.take 70)) ++ "...") ∧
    (collapseWs s = s → 70 < s.length →
      (∀ c, (s.data.take 70).head? = some c → c.isWhitespace = false) →
      (∀ c, (s.data.take 70).getLast? = some c → c.isWhitespace = false) →
      createExcerpt s = String.mk (s.data.take 70) ++ "...") := by
  refine ⟨?_, ?_, ?_⟩
  · intro hc hle
    simp [createExcerpt, hc, Nat.not_lt.mpr hle]
  · intro hc hgt
    simp [createExcerpt, hc, hgt]
  · intro hc hgt hh hl
    simp [createExcerpt, hc, hgt, pyStrip_eq (s.data.take 70) hh hl]

set_option maxRecDepth 8192 in
/-- Witness for C6: a short text passes through unmodified; the 200-character
example is truncated to its stripped 70-character prefix plus ellipsis. -/
theorem excerpt_truncation_wit :
    createExcerpt "hola" = "hola" ∧
    createExcerpt c6input = String.mk (pyStrip (c6input.data.take 70)) ++ "..." := by
  refine ⟨(excerpt_truncation "hola").1 (by decide) (by decide),
          (excerpt_truncation c6input).2.1 (by decide) (by decide)⟩

/-- A content root whose allowed `p` element contains a disallowed `script`
element with a disallowed `onload` attribute. -/
def c3input : HNode :=
  .elem "div" []
    (.cons
      (.elem "p" [("style", "color:red")]
        (.cons (.elem "script" [("onload", "alert(1)")] (.cons (.text "x") .nil)) .nil))
      .nil)

/-- Counterexample to C3 as stated: the normalized output of `c3input` still
contains the disallowed `script` tag and the disallowed `onload` attribute,
because a kept element is serialized together with its entire (unfiltered)
subtree. -/
theorem normalizer_nested_cex :
    ahrefsCleanHtmlContent c3input
      = "<p><script onload=\"alert(1)\">x</script></p>" ∧
    ("<script".toList <:+: (ahrefsCleanHtmlContent c3input).toList) ∧
    ("onload".toList <:+: (ahrefsCleanHtmlContent c3input).toList) ∧
    "script" ∉ ahrefsAllowedTags ∧ "onload" ∉ ahrefsAllowedAttrs := by
  refine ⟨by decide, by decide, by decide, by decide, by decide⟩

/-- C3 (amended): the normalizer emits exactly one fragment per element of
the (deny-list-scrubbed) tree whose tag is in the allow-list, in document
order, namely the serialization of that element with its own attributes
filtered to the attribute allow-list; no fragment is emitted for a
disallowed element itself, and every surviving top-level attribute of a
fragment's root is allow-listed — but a fragment embeds the unfiltered
subtree of its root, so disallowed tags and attributes nested below an
allowed element persist in the output (see the counterexample). -/
theorem normalizer_structure (root : HNode) :
    (ahrefsCleanParts root
      = ((nodeDescendants (scrubNode ahrefsUnwanted root)).filter
          (fun v => ahrefsAllowedTags.contains (tagOf v))).map
          (fun v => serializeNode (filterOwnAttrs ahrefsAllowedAttrs v))) ∧
    (mozCleanParts root
      = ((nodeDescendants (scrubNode mozUnwanted root)).filter
          (fun v => mozAllowedTags.contains (tagOf v))).map
          (fun v => serializeNode (filterOwnAttrs mozAllowedAttrs v))) ∧
    (∀ v ∈ nodeDescendants (scrubNode ahrefsUnwanted root),
      ∀ pr ∈ attrsOf (filterOwnAttrs ahrefsAllowedAttrs v), pr.1 ∈ ahrefsAllowedAttrs) :=
  ⟨cleanLoop_eq ahrefsAllowedTags ahrefsAllowedAttrs _,
   cleanLoop_eq mozAllowedTags mozAllowedAttrs _,
   fun v _ => filterOwnAttrs_attrs ahrefsAllowedAttrs v⟩

/-- An allow-listed anchor with an allow-listed attribute, for the C3
witness. -/
def c3wInput : HNode :=
  .elem "div" [] (.cons (.elem "a" [("href", "u")] .nil) .nil)

/-- Witness for C3: the characterization applied to concrete inputs, and the
attribute property applied to the anchor's surviving href attribute. -/
theorem normalizer_structure_wit :
    ahrefsCleanParts c3input
      = ((nodeDescendants (scrubNode ahrefsUnwanted c3input)).filter
          (fun v => ahrefsAllowedTags.contains (tagOf v))).map
          (fun v => serializeNode (filterOwnAttrs ahrefsAllowedAttrs v)) ∧
    ("href", "u").1 ∈ ahrefsAllowedAttrs := by
  have h1 := (normalizer_structure c3input).1
  have hlist : nodeDescendants (scrubNode ahrefsUnwanted c3wInput)
      = [.elem "a" [("href", "u")] .nil] := rfl
  have hattrs : attrsOf (filterOwnAttrs ahrefsAllowedAttrs (.elem "a" [("href", "u")] .nil))
      = [("href", "u")] := rfl
  have h2 := (normalizer_structure c3wInput).2.2 (.elem "a" [("href", "u")] .nil)
    (hlist ▸ List.mem_singleton.mpr rfl) ("href", "u")
    (hattrs ▸ List.mem_singleton.mpr rfl)
  exact ⟨h1, h2⟩

/-- C1 (amended): for every category whose first listing page splits as a
fresh run of entries (each with a link that is not yet known and a fetchable
article page — in particular pairwise-distinct links) followed by a boundary
(either the five-entry window is exhausted or the next entry's link is
already known), the update scan collects exactly one record per fresh entry,
issues article fetches for exactly those links in listing order, and never
fetches any already-known link — in particular, when the very first entry is
already known, zero article fetches are performed.  The window is
`headers.take 5`, so at most five entries are ever inspected (the original
claim fails for more than five fresh entries, see the counterexample). -/
theorem update_early_stop (env : Env) (cat url : String) (existing : List String)
    (page : ListingPage) (front tail : List Header)
    (hp : env.fetchListingPage url = some page)
    (hsplit : page.headers.take 5 = front ++ tail)
    (hfresh : FreshChain env existing front)
    (hbreak : BreakCond existing tail) :
    (scanCategory env cat url existing).newArts.length = front.length ∧
    (scanCategory env cat url existing).fetched = headerLinks front ∧
    ((scanCategory env cat url existing).newArts.map (fun a => a.link)) = headerLinks front ∧
    (∀ x ∈ existing, x ∉ (scanCategory env cat url existing).fetched) := by
  by_cases he : page.headers.isEmpty
  · have hnil : page.headers = [] := by simpa using he
    have : front = [] ∧ tail = [] := by
      have := hsplit.symm
      rw [hnil] at this
      simpa using this.symm
    obtain ⟨hf, _⟩ := this
    subst hf
    simp [scanCategory, hp, he, headerLinks]
  · have hrun := scanEntries_run env cat front existing tail hfresh hbreak
    have hres : scanCategory env cat url existing
        = scanEntries env cat existing (front ++ tail) := by
      simp [scanCategory, hp, he, hsplit]
    rw [hres]
    refine ⟨hrun.2.2, hrun.1, hrun.2.1, ?_⟩
    intro x hx
    rw [hrun.1]
    exact freshChain_excl env front existing hfresh x hx

def c1wEnv : Env :=
  ⟨[("cat", "u")],
   fun u => if u = "u" then some ⟨[⟨some "n1", "t1"⟩, ⟨some "k", "tk"⟩], none⟩ else none,
   fun _ => some ⟨none, none⟩,
   fun s => s⟩

/-- Witness for C1: one fresh entry followed by a known one — exactly one
record collected and exactly the fresh link fetched. -/
theorem update_early_stop_wit :
    (scanCategory c1wEnv "cat" "u" ["k"]).newArts.length = 1 ∧
    (scanCategory c1wEnv "cat" "u" ["k"]).fetched = headerLinks [⟨some "n1", "t1"⟩] := by
  have h := update_early_stop c1wEnv "cat" "u" ["k"] ⟨[⟨some "n1", "t1"⟩, ⟨some "k", "tk"⟩], none⟩
    [⟨some "n1", "t1"⟩] [⟨some "k", "tk"⟩] rfl rfl
    ⟨"n1", rfl, by decide, rfl, trivial⟩ ⟨"k", rfl, by decide⟩
  exact ⟨h.1, h.2.1⟩

def c1cexEnv : Env :=
  ⟨[("cat", "u")],
   fun u =>
     if u = "u" then
       some ⟨[⟨some "n1", "t1"⟩, ⟨some "n2", "t2"⟩, ⟨some "n3", "t3"⟩, ⟨some "n4", "t4"⟩,
              ⟨some "n5", "t5"⟩, ⟨some "n6", "t6"⟩, ⟨some "k", "tk"⟩], none⟩
     else none,
   fun _ => some ⟨none, none⟩,
   fun s => s⟩

def c1cexFS : FS :=
  ⟨some ⟨"Ahrefs", [⟨"cat", "k", "tk", "", "", "", "", AHREFS_FAVICON⟩]⟩, none⟩

/-- Counterexample to C1 as stated: a listing whose first six entries are new
(their links absent from the persisted collection) with entry six already
known collects five records, not six — the scan never looks past the first
five entries. -/
theorem update_early_stop_cex :
    (runUpdateScrape c1cexEnv c1cexFS).newArticles.length = 5 ∧
    ¬ (runUpdateScrape c1cexEnv c1cexFS).newArticles.length = 6 := by
  refine ⟨by decide, by decide⟩

/-- C10: in an update run, every article fetch is for a link occurring among
the first five entries of some configured category's first listing page, and
every collected record's link was fetched — so an entry at position six or
later is never fetched or collected. -/
theorem update_window (env : Env) (fs : FS) :
    (∀ l ∈ (runUpdateScrape env fs).fetchedArticleLinks,
      ∃ c u page, (c, u) ∈ env.categories ∧ env.fetchListingPage u = some page ∧
        l ∈ headerLinks (page.headers.take 5)) ∧
    (∀ a ∈ (runUpdateScrape env fs).newArticles,
      a.link ∈ (runUpdateScrape env fs).fetchedArticleLinks) := by
  have h := scanCategories_fetched_sub env env.categories
    ((loadExistingData fs).articles.map (fun a => a.link))
  constructor
  · intro l hl
    rw [runUpdate_fetched] at hl
    exact h.1 l hl
  · intro a ha
    rw [runUpdate_newArticles] at ha
    rw [runUpdate_fetched]
    exact h.2 a ha

def c10wEnv : Env :=
  ⟨[("c", "u")],
   fun u => if u = "u" then some ⟨[⟨some "L", "T"⟩], none⟩ else none,
   fun _ => some ⟨none, none⟩,
   fun s => s⟩

def c10wFS : FS := ⟨some ⟨"Ahrefs", []⟩, none⟩

/-- Witness for C10: the one collected record's link was fetched in the run. -/
theorem update_window_wit :
    (buildArticle c10wEnv "c" "L" ⟨some "L", "T"⟩ ⟨none, none⟩).link
      ∈ (runUpdateScrape c10wEnv c10wFS).fetchedArticleLinks := by
  exact (update_window c10wEnv c10wFS).2
    (buildArticle c10wEnv "c" "L" ⟨some "L", "T"⟩ ⟨none, none⟩) (by decide)

theorem update_no_new (env : Env) (fs : FS) :
    (runUpdateScrape env fs).newArticles = [] →
      (runUpdateScrape env fs).fs.db = fs.db ∧ (runUpdateScrape env fs).savePerformed = false := by
  intro h
  have hE : (runUpdateScrape env fs).newArticles.isEmpty = true := by simp [h]
  constructor
  · rw [runUpdate_db, if_pos hE]
  · rw [runUpdate_save, hE]
    rfl

theorem update_second_run_empty (env : Env) (fs : FS) :
    (runUpdateScrape env (runUpdateScrape env fs).fs).newArticles = [] := by
  rw [runUpdate_newArticles]
  by_cases hE : (runUpdateScrape env fs).newArticles.isEmpty
  · have hdb : (runUpdateScrape env fs).fs.db = fs.db := by rw [runUpdate_db, if_pos hE]
    have hload : loadExistingData (runUpdateScrape env fs).fs = loadExistingData fs := by
      simp [loadExistingData, hdb]
    rw [hload]
    rw [runUpdate_newArticles] at hE
    simpa using hE
  · have hdb : (runUpdateScrape env fs).fs.db
        = some ⟨(loadExistingData fs).titulo,
                (runUpdateScrape env fs).newArticles ++ (loadExistingData fs).articles⟩ := by
      rw [runUpdate_db, if_neg hE]
    have hload : loadExistingData (runUpdateScrape env fs).fs
        = ⟨(loadExistingData fs).titulo,
           (runUpdateScrape env fs).newArticles ++ (loadExistingData fs).articles⟩ := by
      simp [loadExistingData, hdb]
    rw [hload, runUpdate_newArticles]
    have hstable := scanCategories_stable env env.categories
      ((loadExistingData fs).articles.map (fun a => a.link))
      (((scanCategories env ((loadExistingData fs).articles.map (fun a => a.link))
          env.categories).newArts.map (fun a => a.link))
        ++ (loadExistingData fs).articles.map (fun a => a.link))
      (fun x hx => List.mem_append_right _ hx)
      (fun l hl => List.mem_append_left _ hl)
    simpa [List.map_append] using hstable.1

/-- C2 (amended): an update run that finds no new records performs no save
and leaves the database file byte-for-byte unchanged; however, a backup is
written unconditionally at the start of every update run whenever the
database file exists — including a run that finds nothing new, and including
the second of two identical runs.  Running update twice in succession
against an unchanged environment finds no new records on the second run and
leaves the collection unchanged. -/
theorem update_untouched_idempotent (env : Env) (fs : FS) :
    ((runUpdateScrape env fs).newArticles = [] →
      (runUpdateScrape env fs).fs.db = fs.db ∧ (runUpdateScrape env fs).savePerformed = false) ∧
    (runUpdateScrape env fs).backupPerformed = fs.db.isSome ∧
    (runUpdateScrape env (runUpdateScrape env fs).fs).newArticles = [] ∧
    (runUpdateScrape env (runUpdateScrape env fs).fs).fs.db = (runUpdateScrape env fs).fs.db ∧
    (runUpdateScrape env (runUpdateScrape env fs).fs).savePerformed = false := by
  refine ⟨update_no_new env fs, runUpdate_backupPerformed env fs,
    update_second_run_empty env fs, ?_, ?_⟩
  · exact (update_no_new env _ (update_second_run_empty env fs)).1
  · exact (update_no_new env _ (update_second_run_empty env fs)).2

def c2wEnv : Env := ⟨[], fun _ => none, fun _ => none, fun s => s⟩

def c2wFS : FS := ⟨some ⟨"Ahrefs", []⟩, none⟩

/-- Witness for C2: a run over no categories finds nothing, saves nothing and
leaves the database unchanged; the second run finds nothing either. -/
theorem update_untouched_idempotent_wit :
    (runUpdateScrape c2wEnv c2wFS).fs.db = c2wFS.db ∧
    (runUpdateScrape c2wEnv c2wFS).savePerformed = false ∧
    (runUpdateScrape c2wEnv (runUpdateScrape c2wEnv c2wFS).fs).newArticles = [] := by
  have h := update_untouched_idempotent c2wEnv c2wFS
  exact ⟨(h.1 (by decide)).1, (h.1 (by decide)).2, h.2.2.1⟩

def c2cexEnv : Env :=
  ⟨[("c", "u")],
   fun u => if u = "u" then some ⟨[⟨some "K", "T"⟩], none⟩ else none,
   fun _ => some ⟨none, none⟩,
   fun s => s⟩

def c2cexFS : FS :=
  ⟨some ⟨"Ahrefs", [⟨"c", "K", "T", "", "", "", "", AHREFS_FAVICON⟩]⟩, none⟩

/-- Counterexample to C2 as stated: an update run that finds no new records
(the single listed entry is already known) still writes a backup — the
backup file changes from absent to a copy of the database. -/
theorem update_untouched_idempotent_cex :
    (runUpdateScrape c2cexEnv c2cexFS).newArticles = [] ∧
    (runUpdateScrape c2cexEnv c2cexFS).backupPerformed = true ∧
    c2cexFS.bak = none ∧
    (runUpdateScrape c2cexEnv c2cexFS).fs.bak = c2cexFS.db := by
  refine ⟨by decide, by decide, by decide, by decide⟩

theorem update_preserves (env : Env) (fs : FS) (d : SiteData) (hdb : fs.db = some d)
    (hnd : (d.articles.map (fun a => a.link)).Nodup) :
    (runUpdateScrape env fs).fs.db
      = some ⟨d.titulo, (runUpdateScrape env fs).newArticles ++ d.articles⟩ ∧
    ((((runUpdateScrape env fs).newArticles ++ d.articles).map (fun a => a.link)).Nodup) := by
  have hload : loadExistingData fs = d := by simp [loadExistingData, hdb]
  constructor
  · rw [runUpdate_db]
    by_cases hE : (runUpdateScrape env fs).newArticles.isEmpty
    · rw [if_pos hE, hdb]
      have hnil : (runUpdateScrape env fs).newArticles = [] := by simpa using hE
      rw [hnil, List.nil_append]
    · rw [if_neg hE, hload]
  · have hnodup := scanCategories_nodup env env.categories (d.articles.map (fun a => a.link))
    rw [runUpdate_newArticles, hload] at *
    rw [List.map_append, List.nodup_append]
    exact ⟨hnodup.1, hnd, fun x hx => hnodup.2 x hx⟩

theorem iter_preserves (env : Env) :
    ∀ n (fs : FS) (d : SiteData), fs.db = some d →
      (d.articles.map (fun a => a.link)).Nodup →
      ∃ pre, (iterUpdate env n fs).db = some ⟨d.titulo, pre ++ d.articles⟩ ∧
        ((pre ++ d.articles).map (fun a => a.link)).Nodup := by
  intro n
  induction n with
  | zero =>
    intro fs d hdb hnd
    exact ⟨[], by simpa [iterUpdate] using hdb, by simpa using hnd⟩
  | succ m ih =>
    intro fs d hdb hnd
    have h1 := update_preserves env fs d hdb hnd
    obtain ⟨pre, hdb2, hnd2⟩ := ih (runUpdateScrape env fs).fs
      ⟨d.titulo, (runUpdateScrape env fs).newArticles ++ d.articles⟩ h1.1 (by simpa using h1.2)
    refine ⟨pre ++ (runUpdateScrape env fs).newArticles, ?_, ?_⟩
    · show (iterUpdate env m (runUpdateScrape env fs).fs).db = _
      rw [hdb2]
      simp [List.append_assoc]
    · simpa [List.append_assoc] using hnd2

/-- C4: when the persisted collection's links are unique, an update run
replaces the article list with exactly the newly collected records (in
discovery order) prepended to the prior contents, which remain unchanged in
their relative order, and link uniqueness is preserved; by induction the
same invariant holds after any number of repeated update runs. -/
theorem collection_invariant (env : Env) (fs : FS) (d : SiteData) (hdb : fs.db = some d)
    (hnd : (d.articles.map (fun a => a.link)).Nodup) :
    ((runUpdateScrape env fs).fs.db
       = some ⟨d.titulo, (runUpdateScrape env fs).newArticles ++ d.articles⟩ ∧
     ((((runUpdateScrape env fs).newArticles ++ d.articles).map (fun a => a.link)).Nodup)) ∧
    (∀ n, ∃ pre, (iterUpdate env n fs).db = some ⟨d.titulo, pre ++ d.articles⟩ ∧
       ((pre ++ d.articles).map (fun a => a.link)).Nodup) :=
  ⟨update_preserves env fs d hdb hnd, fun n => iter_preserves env n fs d hdb hnd⟩

/-- Witness for C4: the invariant instantiated on a concrete store with a
unique-link collection. -/
theorem collection_invariant_wit :
    (runUpdateScrape c2cexEnv c2cexFS).fs.db
      = some ⟨"Ahrefs", (runUpdateScrape c2cexEnv c2cexFS).newArticles
          ++ [⟨"c", "K", "T", "", "", "", "", AHREFS_FAVICON⟩]⟩ ∧
    ((((runUpdateScrape c2cexEnv c2cexFS).newArticles
        ++ ([⟨"c", "K", "T", "", "", "", "", AHREFS_FAVICON⟩] : List Article)).map
          (fun a => a.link)).Nodup) := by
  exact (collection_invariant c2cexEnv c2cexFS
    ⟨"Ahrefs", [⟨"c", "K", "T", "", "", "", "", AHREFS_FAVICON⟩]⟩ rfl (by decide)).1

/-- C7 (amended): in the developer_google scraper an absent content root
yields empty fetched content and the record is dropped, never stored; in the
ahrefs scraper, by contrast, the record is kept and stored with empty
content.  Absent title locators yield the fallback title; but in
developer_google an absent excerpt locator triggers the (handled) exception
from the undefined `_create_excerpt` and the record is dropped. -/
theorem content_root_handling :
    (∀ (env : Env) (cat : String) (existing : List String) (h : Header)
        (rest : List Header) (l : String) (dt : Option String),
      h.linkHref = some l → l ∉ existing → env.fetchArticle l = some ⟨none, dt⟩ →
      (scanEntries env cat existing (h :: rest)).newArts
        = buildArticle env cat l h ⟨none, dt⟩
            :: (scanEntries env cat (l :: existing) rest).newArts ∧
      (buildArticle env cat l h ⟨none, dt⟩).fullContent = "") ∧
    (∀ (env : Env) (l : String) (dt : Option String),
      env.fetchArticle l = some ⟨none, dt⟩ → googleFetchArticleContent env l = "") ∧
    (∀ (env : Env) (cat : String) (processed : List String) (card : GCard) (l : String),
      card.linkHref = some l → l ∉ processed → googleFetchArticleContent env l = "" →
      googleProcessCard env cat processed card = none) ∧
    (∀ (env : Env) (cat : String) (processed : List String) (card : GCard) (l : String),
      card.linkHref = some l → l ∉ processed → ¬ googleFetchArticleContent env l = "" →
      card.excerptText = none → googleProcessCard env cat processed card = none) ∧
    (∀ (env : Env) (cat : String) (processed : List String) (card : GCard) (l ex : String),
      card.linkHref = some l → l ∉ processed → ¬ googleFetchArticleContent env l = "" →
      card.excerptText = some ex → card.titleText = none →
      ∃ a, googleProcessCard env cat processed card = some a
        ∧ a.tituloEntrada = "Sin Título") := by
  refine ⟨?_, ?_, ?_, ?_, ?_⟩
  · intro env cat existing h rest l dt hl hmem hf
    constructor
    · simp [scanEntries, hl, hmem, hf]
    · rfl
  · intro env l dt hf
    simp [googleFetchArticleContent, hf]
  · intro env cat processed card l hl hmem hempty
    simp [googleProcessCard, hl, hmem, hempty]
  · intro env cat processed card l hl hmem hne hex
    simp [googleProcessCard, hl, hmem, hne, hex]
  · intro env cat processed card l ex hl hmem hne hex ht
    refine ⟨⟨cat, l, "Sin Título", card.thumbSrc.getD "", googleFetchArticleContent env l, ex,
      (match card.dateText with | some d => env.parseDate d | none => ""), GOOGLE_FAVICON⟩,
      ?_, rfl⟩
    simp [googleProcessCard, hl, hmem, hne, hex, ht]

def c7Env : Env :=
  ⟨[("c", "u")],
   fun u => if u = "u" then some ⟨[⟨some "L", "T"⟩], none⟩ else none,
   fun _ => some ⟨none, none⟩,
   fun s => s⟩

def c7FS : FS := ⟨none, none⟩

/-- Counterexample to C7 as stated: the ahrefs initial scrape stores a record
with empty `full_content` when the article page's content root is absent —
the record is not dropped. -/
theorem content_root_cex :
    (runInitialScrape c7Env c7FS 5).1.db
      = some ⟨"Ahrefs", [⟨"c", "L", "T", "", "", "", "", AHREFS_FAVICON⟩]⟩ ∧
    (⟨"c", "L", "T", "", "", "", "", AHREFS_FAVICON⟩ : Article).fullContent = "" := by
  refine ⟨by decide, rfl⟩

def c7wEnv : Env := ⟨[], fun _ => none, fun _ => some ⟨none, none⟩, fun s => s⟩

def c7wCard : GCard := ⟨some "L", none, none, none, none⟩

/-- Witness for C7: with an absent content root, developer_google's content
fetch returns the empty string and the card is dropped. -/
theorem content_root_handling_wit :
    googleFetchArticleContent c7wEnv "L" = "" ∧
    googleProcessCard c7wEnv "c" [] c7wCard = none := by
  have h1 := content_root_handling.2.1 c7wEnv "L" none rfl
  have h2 := content_root_handling.2.2.1 c7wEnv "c" [] c7wCard "L" rfl
    (by simp) h1
  exact ⟨h1, h2⟩

/-- C8 (amended): the moz-style linked-page traversal fetches at most
`MAX_PAGES_TO_SCRAPE` (5) listing pages per category; the load-more loop
exits at the first poll cycle that activates no displayed-and-enabled
control; the scroll loop exits at the first settle measurement whose page
height equals the previous one.  The ahrefs-style linked traversal has no
page cap and does not terminate while every page presents a next link (see
the counterexample), so the original universal termination statement fails. -/
theorem traversal_bounds :
    (∀ (env : Env) (url : String),
      mozPagesInCategory env url MAX_PAGES_TO_SCRAPE ≤ MAX_PAGES_TO_SCRAPE) ∧
    (∀ (B : Nat → Bool) (d fuel : Nat), (∀ j, j < d → B j = true) → B d = false →
      d < fuel → loadMoreRounds B 0 fuel = some (d + 1)) ∧
    (∀ (H : Nat → Nat) (d fuel : Nat), (∀ j, j < d → H (j + 1) ≠ H j) → H (d + 1) = H d →
      d < fuel → scrollRounds H 0 fuel = some (d + 1)) := by
  refine ⟨fun env url => mozPages_le env MAX_PAGES_TO_SCRAPE url, ?_, ?_⟩
  · intro B d fuel h1 h2 h3
    have := loadMoreRounds_exit B d 0 fuel (by simpa using h1) (by simpa using h2) h3
    simpa using this
  · intro H d fuel h1 h2 h3
    have := scrollRounds_exit H d 0 fuel (by simpa using h1) (by simpa using h2) h3
    simpa using this

/-- Witness for C8: the moz bound on a concrete environment; a load-more page
with no active control stops after one cycle; a constant-height page stops
after one scroll. -/
theorem traversal_bounds_wit :
    mozPagesInCategory c2wEnv "u" MAX_PAGES_TO_SCRAPE ≤ MAX_PAGES_TO_SCRAPE ∧
    loadMoreRounds (fun _ => false) 0 3 = some 1 ∧
    scrollRounds (fun _ => 7) 0 3 = some 1 := by
  refine ⟨traversal_bounds.1 c2wEnv "u", ?_, ?_⟩
  · exact traversal_bounds.2.1 (fun _ => false) 0 3
      (fun j hj => absurd hj (Nat.not_lt_zero j)) rfl (by decide)
  · exact traversal_bounds.2.2 (fun _ => 7) 0 3
      (fun j hj => absurd hj (Nat.not_lt_zero j)) rfl (by decide)

def c8cexEnv : Env :=
  ⟨[("c", "u")], fun _ => some ⟨[], some "u"⟩, fun _ => none, fun s => s⟩

/-- Counterexample to C8 as stated: on a listing whose every page presents a
next-page link, the ahrefs initial-scrape pagination loop — which has no
`maxPages` bound — is still running after 6 page fetches and still running
after 100, so no fixed page cap bounds it and its exit condition is never
reached. -/
theorem traversal_uncapped_cex :
    (initPages c8cexEnv "c" [] "u" 6).pagesFetched = 6 ∧
    (initPages c8cexEnv "c" [] "u" 6).natural = false ∧
    (initPages c8cexEnv "c" [] "u" 100).pagesFetched = 100 ∧
    (initPages c8cexEnv "c" [] "u" 100).natural = false := by
  refine ⟨by decide, by decide, by decide, by decide⟩

/-- C9 (amended): the engine runs initial mode exactly when the database
file is absent — a present file holding an empty collection runs update
mode instead (see the counterexample).  Initial mode replaces the store
wholesale with the records accumulated over all configured categories
(a value of the run's environment alone, with intra-run dedup by link, so
the resulting links are unique), writes no backup, and — in the ahrefs
scraper — follows next-page links without any page cap. -/
theorem mode_dispatch (env : Env) (fs : FS) (fuel : Nat) :
    (fs.db = none → mainRun env fs fuel = (runInitialScrape env fs fuel).1) ∧
    (runInitialScrape env fs fuel).1.db
      = some ⟨"Ahrefs", (initCategories env [] fuel env.categories).arts⟩ ∧
    (runInitialScrape env fs fuel).1.bak = fs.bak ∧
    (((initCategories env [] fuel env.categories).arts.map (fun a => a.link)).Nodup) := by
  refine ⟨?_, rfl, rfl, (initCategories_inv env fuel env.categories []).1⟩
  intro h
  simp [mainRun, h]

/-- Witness for C9: dispatch and the wholesale replacement on a concrete
absent-store state. -/
theorem mode_dispatch_wit :
    mainRun c7Env c7FS 5 = (runInitialScrape c7Env c7FS 5).1 ∧
    (runInitialScrape c7Env c7FS 5).1.bak = c7FS.bak ∧
    (((initCategories c7Env [] 5 c7Env.categories).arts.map (fun a => a.link)).Nodup) := by
  have h := mode_dispatch c7Env c7FS 5
  exact ⟨h.1 rfl, h.2.2.1, h.2.2.2⟩

def c9cexEnv : Env :=
  ⟨[("c", "u")],
   fun u =>
     if u = "u" then
       some ⟨[⟨some "n1", "t1"⟩, ⟨some "n2", "t2"⟩, ⟨some "n3", "t3"⟩, ⟨some "n4", "t4"⟩,
              ⟨some "n5", "t5"⟩, ⟨some "n6", "t6"⟩], none⟩
     else none,
   fun _ => some ⟨none, none⟩,
   fun s => s⟩

def c9cexFS : FS := ⟨some ⟨"Ahrefs", []⟩, none⟩

/-- Counterexample to C9 as stated: with a present but empty store, the
engine runs update mode — of six discovered articles it collects only the
first five — whereas initial mode (which the claim requires for an empty
store) would collect all six. -/
theorem mode_dispatch_cex :
    Option.map (fun d => d.articles.length) (mainRun c9cexEnv c9cexFS 10).db = some 5 ∧
    Option.map (fun d => d.articles.length) (runInitialScrape c9cexEnv c9cexFS 10).1.db
      = some 6 := by
  refine ⟨by decide, by decide⟩
